import Mathlib

/-! Predicate builders of `predicates.go`.

A shallow embedding of the predicate constructors of package `gftools`
(`src/predicates.go`) together with the properties stated about them.

Modelling conventions.

* A Go `string` is a finite sequence of bytes; `len`, slicing and `==` all work
  on bytes, so a string is a `List Byte`.
* Go `int` values are mathematical integers (`Int`).  The only arithmetic the
  string code performs is on lengths (`len(s) - len(substr)`, `i + len(substr)`,
  `i++` under the loop guard); every length lies in `0 .. 2^63 - 1`, so none of
  these leaves the 64-bit range and no wrap-around is modelled.
* An expression that can fail at run time (a slice expression out of range, a
  call through a nil function value) evaluates to an `Outcome`: either a value
  or a run-time panic.  The `for` loop of `stringContains` is run with an
  explicit iteration budget; exhausting it is a third, distinct outcome.
* `a && b` evaluates `b` only when `a` is true (`Outcome.andThen`).
* `==` on a `comparable` type parameter and the hashing of a map key can panic
  when the type argument is an interface type; both are modelled with their
  failure (`GoComparable`), and `GoAny` is a concrete interface type on which the
  predicates are evaluated.
* `regexp.Compile` is library code: it is a parameter of `MatchRegex`, and
  `sampleCompile` follows the library on patterns of letters and `[`.
-/

namespace Gftools

/-- One byte of a Go string. -/
abbrev Byte := Fin 256

/-- A Go `string`: an immutable sequence of bytes. -/
abbrev GoString := List Byte

/-- Result of evaluating Go code that may fail at run time. -/
inductive Outcome (α : Type) where
  | ok (value : α)
  | panic
  | outOfFuel
  deriving DecidableEq, Repr

namespace Outcome

/-- Sequencing: the continuation runs only when the first computation returned. -/
def bind {α β : Type} (r : Outcome α) (k : α → Outcome β) : Outcome β :=
  match r with
  | ok a => k a
  | panic => panic
  | outOfFuel => outOfFuel

/-- Go's short-circuit `a && b`: the right operand is evaluated only if `a` is true. -/
def andThen (a : Bool) (b : Outcome Bool) : Outcome Bool :=
  if a then b else ok false

/-- Apply a pure function to a returned value. -/
def map {α β : Type} (f : α → β) (r : Outcome α) : Outcome β :=
  r.bind (fun a => ok (f a))

end Outcome

/-- Go's builtin `len` on a string, of type `int`. -/
def len (s : GoString) : Int := (s.length : Int)

/-- The slice expression `s[lo:hi]`: panics unless `0 <= lo <= hi <= len(s)`. -/
def slice (s : GoString) (lo hi : Int) : Outcome GoString :=
  if 0 ≤ lo ∧ lo ≤ hi ∧ hi ≤ len s then
    Outcome.ok ((s.drop lo.toNat).take (hi.toNat - lo.toNat))
  else
    Outcome.panic

/-- The loop of `stringContains`, entered with loop variable `i`:
`for ; i <= len(s)-len(substr); i++ { if s[i:i+len(substr)] == substr { return true } }`
followed by `return false`.  The first argument bounds the number of guard tests. -/
def stringContainsLoop (s substr : GoString) : Nat → Int → Outcome Bool
  | 0, _ => Outcome.outOfFuel
  | fuel + 1, i =>
    if i ≤ len s - len substr then
      (slice s i (i + len substr)).bind fun t =>
        if t = substr then Outcome.ok true
        else stringContainsLoop s substr fuel (i + 1)
    else
      Outcome.ok false

/-- Source `stringContains(s, substr)`: the loop started at `i := 0`.  The loop guard is
tested at most `len(s) + 2` times. -/
def stringContains (s substr : GoString) : Outcome Bool :=
  stringContainsLoop s substr (s.length + 2) 0

/-- Source `Contains(substr)(s)`:
`len(substr) > 0 && len(s) > 0 && (len(substr) <= len(s)) && (stringContains(s, substr))`. -/
def Contains (substr : GoString) : GoString → Outcome Bool :=
  fun s =>
    Outcome.andThen (decide (len substr > 0))
      (Outcome.andThen (decide (len s > 0))
        (Outcome.andThen (decide (len substr ≤ len s))
          (stringContains s substr)))

/-- Source `StartsWith(prefix)(s)`: `len(s) >= len(prefix) && s[:len(prefix)] == prefix`. -/
def StartsWith (pre : GoString) : GoString → Outcome Bool :=
  fun s =>
    Outcome.andThen (decide (len s ≥ len pre))
      ((slice s 0 (len pre)).map fun t => decide (t = pre))

/-- Source `EndsWith(suffix)(s)`: `len(s) >= len(suffix) && s[len(s)-len(suffix):] == suffix`. -/
def EndsWith (suffix : GoString) : GoString → Outcome Bool :=
  fun s =>
    Outcome.andThen (decide (len s ≥ len suffix))
      ((slice s (len s - len suffix) (len s)).map fun t => decide (t = suffix))

/-- An occurrence of `sub` in `s` at byte offset `j`. -/
def OccursAt (sub s : GoString) (j : Nat) : Prop :=
  j + sub.length ≤ s.length ∧ (s.drop j).take sub.length = sub

/-! ### Equality on `comparable` types

A type parameter constrained by `comparable` can be instantiated at an interface
type, or at a struct or array type with interface-typed parts.  For such a type
`a == b` panics at run time when both operands hold the same uncomparable dynamic
type (a slice, a map, a function), and using such a value as a map key panics when
it is hashed.  Float keys add that `NaN == NaN` is false.  `GoComparable` records
the two operations as they behave, without assuming any law about them. -/

/-- Go's `==` and map-key hashing on the values of a type that satisfies
`comparable`. -/
class GoComparable (T : Type) where
  /-- The comparison `a == b`; `none` when it panics. -/
  eq : T → T → Option Bool
  /-- Whether the value can be hashed as a map key; hashing panics otherwise. -/
  hashable : T → Bool

/-- The expression `a == b` as evaluated at run time. -/
def goEq {T : Type} [GoComparable T] (a b : T) : Outcome Bool :=
  match GoComparable.eq a b with
  | some c => Outcome.ok c
  | none => Outcome.panic

/-- Equality on `int`: total, every value hashable. -/
instance instGoComparableInt : GoComparable Int where
  eq a b := some (decide (a = b))
  hashable _ := true

/-- Equality on `string`: total, every value hashable. -/
instance instGoComparableString : GoComparable GoString where
  eq a b := some (decide (a = b))
  hashable _ := true

/-- Values of the interface type `any`: the nil interface, or a value of dynamic
type `int`, `string`, `[]int`, or the `float64` value NaN. -/
inductive GoAny where
  | nil
  | int (n : Int)
  | str (s : GoString)
  | ints (xs : List Int)
  | nan
  deriving DecidableEq, Repr

/-- Comparison of two `any` values: different dynamic types compare unequal, two
`[]int` operands panic (`comparing uncomparable type []int`), NaN differs from
itself. -/
def GoAny.eq : GoAny → GoAny → Option Bool
  | GoAny.nil, GoAny.nil => some true
  | GoAny.int a, GoAny.int b => some (decide (a = b))
  | GoAny.str a, GoAny.str b => some (decide (a = b))
  | GoAny.ints _, GoAny.ints _ => none
  | _, _ => some false

/-- Hashing an `any` value panics exactly for the dynamic type `[]int`
(`hash of unhashable type []int`). -/
def GoAny.hashable : GoAny → Bool
  | GoAny.ints _ => false
  | _ => true

/-- Equality and hashing on `any`. -/
instance instGoComparableAny : GoComparable GoAny where
  eq := GoAny.eq
  hashable := GoAny.hashable

/-- The zero value of `any` is the nil interface. -/
instance instInhabitedGoAny : Inhabited GoAny where
  default := GoAny.nil

/-- Source `Equals(target)(x)`: `x == target`. -/
def Equals {T : Type} [GoComparable T] (target : T) : T → Outcome Bool :=
  fun x => goEq x target

/-! ### Integer predicates

Go `int` is a 64-bit two's-complement integer.  The integer predicates only
compare their arguments or take a remainder by 2; neither can overflow, so they
are stated over all of `Int`, of which the 64-bit integers are a subset. -/

/-- Source `GreaterThan(n)(x)`: `x > n`. -/
def GreaterThan (n : Int) : Int → Bool :=
  fun x => decide (x > n)

/-- Source `GreaterOrEqual(n)(x)`: `x >= n`. -/
def GreaterOrEqual (n : Int) : Int → Bool :=
  fun x => decide (x ≥ n)

/-- Source `LessThan(n)(x)`: `x < n`. -/
def LessThan (n : Int) : Int → Bool :=
  fun x => decide (x < n)

/-- Source `LessOrEqual(n)(x)`: `x <= n`. -/
def LessOrEqual (n : Int) : Int → Bool :=
  fun x => decide (x ≤ n)

/-- Source `Between(min, max)(x)`: `x >= min && x <= max`. -/
def Between (min max : Int) : Int → Bool :=
  fun x => decide (x ≥ min) && decide (x ≤ max)

/-- Source `IsEven()(x)`: `x % 2 == 0`, where Go's `%` truncates toward zero (`Int.tmod`). -/
def IsEven : Int → Bool :=
  fun x => decide (Int.tmod x 2 = 0)

/-! ### Function values, `Not` and `In` -/

/-- A Go value of type `func(T) bool`: `nil`, or a function that returns a
boolean or fails. -/
abbrev Func (T : Type) := Option (T → Outcome Bool)

/-- The call `paramFunc(x)`: calling a nil function value panics. -/
def Func.call {T : Type} (paramFunc : Func T) (x : T) : Outcome Bool :=
  match paramFunc with
  | none => Outcome.panic
  | some f => f x

/-- Source `Not(paramFunc)(x)`: `!paramFunc(x)`.  `Not` itself only builds the closure. -/
def Not {T : Type} (paramFunc : Func T) : T → Outcome Bool :=
  fun x => (Func.call paramFunc x).map fun b => !b

/-- The body of the predicate built by `In`:
`for _, v := range list { if v == x { return true } }; return false`. -/
def InLoop {T : Type} [GoComparable T] : List T → T → Outcome Bool
  | [], _ => Outcome.ok false
  | v :: rest, x =>
    (goEq v x).bind fun b => if b then Outcome.ok true else InLoop rest x

/-- Source `In(list)(x)`. -/
def In {T : Type} [GoComparable T] (list : List T) : T → Outcome Bool :=
  fun x => InLoop list x

/-! ### Maps -/

/-- A Go `map[K]V`: finitely many entries.  Every stored key was hashed when it was
inserted, and no key is matched by two entries (stored keys are pairwise unequal
under `==`).  The nil map has no entries.  The order of `entries` carries no
meaning. -/
structure GoMap (K V : Type) [GoComparable K] where
  entries : List (K × V)
  hashableKeys : ∀ e, e ∈ entries → GoComparable.hashable e.1 = true
  uniqueMatch : ∀ x : K, entries.Pairwise fun a b =>
    ¬ (GoComparable.eq a.1 x = some true ∧ GoComparable.eq b.1 x = some true)

/-- The value of the entry whose key equals `key` under `==`, if any.  It is used
for a hashable `key` only, and comparing a stored key with a hashable key does not
panic in Go; a comparison that is not true counts as a mismatch. -/
def lookupEntry {K V : Type} [GoComparable K] (key : K) : List (K × V) → Option V
  | [] => none
  | (k, v) :: rest =>
    if GoComparable.eq k key = some true then some v else lookupEntry key rest

/-- The two-result index expression `v, ok := m[key]`: the key is hashed first,
which panics for an unhashable key; then the stored value and `true`, or the zero
value of `V` and `false` when no stored key equals `key`. -/
def GoMap.index {K V : Type} [GoComparable K] [Inhabited V] (m : GoMap K V) (key : K) :
    Outcome (V × Bool) :=
  if GoComparable.hashable key = true then
    match lookupEntry key m.entries with
    | some v => Outcome.ok (v, true)
    | none => Outcome.ok (default, false)
  else
    Outcome.panic

/-- Source `HasKeyValue(key, value)(m)`: `v, ok := m[key]; return ok && v == value`. -/
def HasKeyValue {K V : Type} [GoComparable K] [GoComparable V] [Inhabited V]
    (key : K) (value : V) : GoMap K V → Outcome Bool :=
  fun m => (m.index key).bind fun r => Outcome.andThen r.2 (goEq r.1 value)

/-- The body of the predicate built by `HasValue`, run over the entries in the
order `range m` happens to yield them:
`for _, v := range m { if v == targetValue { return true } }; return false`. -/
def HasValueLoop {K V : Type} [GoComparable V] (targetValue : V) :
    List (K × V) → Outcome Bool
  | [] => Outcome.ok false
  | (_, v) :: rest =>
    (goEq v targetValue).bind fun b =>
      if b then Outcome.ok true else HasValueLoop targetValue rest

/-- Source `HasValue(targetValue)(m)`, with the entries visited in stored order. -/
def HasValue {K V : Type} [GoComparable K] [GoComparable V] (targetValue : V) :
    GoMap K V → Outcome Bool :=
  fun m => HasValueLoop targetValue m.entries

/-- Source `HasKey(targetKey)(m)`: `_, exists := m[targetKey]; return exists`. -/
def HasKey {K V : Type} [GoComparable K] [Inhabited V] (targetKey : K) :
    GoMap K V → Outcome Bool :=
  fun m => (m.index targetKey).map fun r => r.2

/-- The key set of a map. -/
def GoMap.keys {K V : Type} [GoComparable K] (m : GoMap K V) : List K :=
  m.entries.map Prod.fst

/-- The map `{1: 7, 2: 0}` of type `map[int]int`, used for concrete evaluations. -/
def sampleMap : GoMap Int Int where
  entries := [(1, 7), (2, 0)]
  hashableKeys := fun _ _ => rfl
  uniqueMatch := by
    intro x
    simp only [List.pairwise_cons, List.mem_singleton, List.not_mem_nil, forall_eq,
      List.Pairwise.nil, GoComparable.eq]
    refine ⟨?_, ?_, trivial⟩
    · rintro ⟨h1, h2⟩
      simp only [Option.some.injEq, decide_eq_true_eq] at h1 h2
      omega
    · intro a h; exact absurd h (by simp)

/-- The map `{1: 0, 2: 5}`: the keys of `sampleMap` with other values. -/
def sampleMapOther : GoMap Int Int where
  entries := [(1, 0), (2, 5)]
  hashableKeys := fun _ _ => rfl
  uniqueMatch := by
    intro x
    simp only [List.pairwise_cons, List.mem_singleton, List.not_mem_nil, forall_eq,
      List.Pairwise.nil, GoComparable.eq]
    refine ⟨?_, ?_, trivial⟩
    · rintro ⟨h1, h2⟩
      simp only [Option.some.injEq, decide_eq_true_eq] at h1 h2
      omega
    · intro a h; exact absurd h (by simp)

/-- The map `map[any]int{1: 1}`. -/
def anyKeyMap : GoMap GoAny Int where
  entries := [(GoAny.int 1, 1)]
  hashableKeys := by
    intro e he
    rw [List.mem_singleton] at he
    subst he
    rfl
  uniqueMatch := fun _ => List.pairwise_singleton _ _

/-- The map `map[string]any{"a": []int{1}}`; byte 97 is the letter `a`. -/
def sliceValueMap : GoMap GoString GoAny where
  entries := [([97], GoAny.ints [1])]
  hashableKeys := fun _ _ => rfl
  uniqueMatch := fun _ => List.pairwise_singleton _ _

/-- The map `map[string]any{"a": []int{1}, "b": 5}`; bytes 97 and 98 are the
letters `a` and `b`. -/
def mixedValueMap : GoMap GoString GoAny where
  entries := [([97], GoAny.ints [1]), ([98], GoAny.int 5)]
  hashableKeys := fun _ _ => rfl
  uniqueMatch := by
    intro x
    simp only [List.pairwise_cons, List.mem_singleton, List.not_mem_nil, forall_eq,
      List.Pairwise.nil, GoComparable.eq]
    refine ⟨?_, ?_, trivial⟩
    · rintro ⟨h1, h2⟩
      simp only [Option.some.injEq, decide_eq_true_eq] at h1 h2
      rw [← h1] at h2
      exact absurd h2 (by decide)
    · intro a h; exact absurd h (by simp)

/-- The map `map[any]int{math.NaN(): 1}`. -/
def nanKeyMap : GoMap GoAny Int where
  entries := [(GoAny.nan, 1)]
  hashableKeys := by
    intro e he
    rw [List.mem_singleton] at he
    subst he
    rfl
  uniqueMatch := fun _ => List.pairwise_singleton _ _

/-- Source `IsZero[T]()(x)`: `var zero T; x == zero`.  The zero value of a type is
its `default`: `0` for `int`, the empty string for `string`. -/
def IsZero {T : Type} [BEq T] [Inhabited T] : T → Bool :=
  fun x => x == (default : T)

/-! ### `MatchRegex`

Package `regexp` belongs to the Go standard library.  `regexp.Compile` and
`(*Regexp).MatchString` are therefore parameters of the model: `compile` yields
the pair `(re, err)` of a possibly nil compiled expression of type `R` and a
possibly nil error of the library error type `E`. -/

/-- Source `MatchRegex(pattern)`:
`re, err := regexp.Compile(pattern); if err != nil { return nil, err }`
`return func(s string) bool { return re.MatchString(s) }, nil`.
The error returned is the value `err` itself.  Calling `MatchString` through a nil
`re` fails. -/
def MatchRegex {R E : Type} (compile : GoString → Option R × Option E)
    (matchString : R → GoString → Bool) (pattern : GoString) :
    Option (GoString → Outcome Bool) × Option E :=
  match compile pattern with
  | (_, some err) => (none, some err)
  | (re, none) =>
    (some fun s =>
      match re with
      | none => Outcome.panic
      | some r => Outcome.ok (matchString r s),
     none)

/-- The error codes of package `regexp/syntax` that occur below;
`missingBracket` is `ErrMissingBracket`, printed as `missing closing ]`. -/
inductive ErrorCode where
  | missingBracket
  deriving DecidableEq, Repr

/-- The error type `*syntax.Error` of the library: the complaint `Code` and the
offending piece `Expr` of the pattern.  It has no other field. -/
structure SyntaxError where
  Code : ErrorCode
  Expr : GoString
  deriving DecidableEq, Repr

/-- The patterns on which `sampleCompile` follows the library: those made only of
the letters `a` to `z` (bytes 97 to 122) and the opening bracket `[` (byte 91). -/
def inFragment (pattern : GoString) : Bool :=
  pattern.all fun c => decide (c = 91) || (decide (97 ≤ c) && decide (c ≤ 122))

/-- The text of the pattern from its first `[` to its end, if it has a `[`. -/
def unclosedClass : GoString → Option GoString
  | [] => none
  | c :: rest => if c = 91 then some (c :: rest) else unclosedClass rest

/-- What `regexp.Compile` does on the patterns of `inFragment`: a pattern of letters
compiles to the literal text; a `[` opens a character class that is never closed,
and the parser reports `missing closing ]` with the text from that `[` to the end of
the pattern as `Expr`. -/
def sampleCompile (pattern : GoString) : Option GoString × Option SyntaxError :=
  match unclosedClass pattern with
  | some piece => (none, some ⟨ErrorCode.missingBracket, piece⟩)
  | none => (some pattern, none)

/-- The matcher that goes with `sampleCompile`: the literal occurs in `s`. -/
def sampleMatch (re s : GoString) : Bool :=
  decide (stringContains s re = Outcome.ok true)

/-! ### `Contains` without the guards on the input -/

/-- The expression `len(substr) > 0 && stringContains(s, substr)`, which is
`Contains(substr)(s)` without the two length guards on `s`. -/
def ContainsUnguarded (substr : GoString) : GoString → Outcome Bool :=
  fun s => Outcome.andThen (decide (len substr > 0)) (stringContains s substr)

/-! ## Evaluation on concrete inputs -/

theorem eval_Contains_hit : Contains [1, 2] [0, 1, 2, 3] = Outcome.ok true := by decide
theorem eval_Contains_miss : Contains [1, 3] [0, 1, 2, 3] = Outcome.ok false := by decide
theorem eval_stringContains_empty : stringContains [] [] = Outcome.ok true := by decide
theorem eval_stringContains_long : stringContains [1] [1, 2] = Outcome.ok false := by decide
theorem eval_StartsWith : StartsWith [0, 1] [0, 1, 2, 3] = Outcome.ok true := by decide
theorem eval_EndsWith : EndsWith [2, 3] [0, 1, 2, 3] = Outcome.ok true := by decide
theorem eval_EndsWith_long : EndsWith [2, 3] [3] = Outcome.ok false := by decide
theorem eval_Between : Between 1 5 5 = true ∧ Between 1 5 6 = false := by decide
theorem eval_IsEven : IsEven (-4) = true ∧ IsEven (-3) = false ∧ IsEven 0 = true := by decide
theorem eval_In :
    In [1, 2, 3] (2 : Int) = Outcome.ok true ∧ In [1, 2, 3] (4 : Int) = Outcome.ok false ∧
    In [GoAny.ints [1]] (GoAny.int 1) = Outcome.ok false ∧
    In [GoAny.int 1, GoAny.ints [1]] (GoAny.int 1) = Outcome.ok true ∧
    In [GoAny.ints [1]] (GoAny.ints [1]) = Outcome.panic ∧
    In [GoAny.nan] GoAny.nan = Outcome.ok false := by decide
theorem eval_HasValue :
    HasValue 0 sampleMap = Outcome.ok true ∧ HasValue 5 sampleMap = Outcome.ok false ∧
    HasValueLoop 0 [((2 : Int), (0 : Int)), (1, 7)] = Outcome.ok true ∧
    HasValue (GoAny.int 1) sliceValueMap = Outcome.ok false ∧
    HasValue (GoAny.ints [1]) sliceValueMap = Outcome.panic := by decide
theorem eval_HasKey :
    HasKey 2 sampleMap = Outcome.ok true ∧ HasKey 3 sampleMap = Outcome.ok false ∧
    HasKey (GoAny.int 1) anyKeyMap = Outcome.ok true ∧
    HasKey (GoAny.str [97]) anyKeyMap = Outcome.ok false ∧
    HasKey (GoAny.ints [1]) anyKeyMap = Outcome.panic := by decide
theorem eval_IsZero :
    IsZero (0 : Int) = true ∧ IsZero (5 : Int) = false ∧ IsZero ([] : GoString) = true ∧
    IsZero ([0] : GoString) = false := by decide
theorem eval_MatchRegex_error :
    (MatchRegex sampleCompile sampleMatch [91]).2
      = some ⟨ErrorCode.missingBracket, [91]⟩ ∧
    (MatchRegex sampleCompile sampleMatch [97, 98, 91]).2
      = some ⟨ErrorCode.missingBracket, [91]⟩ ∧
    (MatchRegex sampleCompile sampleMatch [97, 91, 98]).2
      = some ⟨ErrorCode.missingBracket, [91, 98]⟩ := by decide
theorem eval_MatchRegex_ok :
    (MatchRegex sampleCompile sampleMatch [97]).2 = none := by decide
theorem eval_Not_nil : Not (none : Func Int) 0 = Outcome.panic := by decide
theorem eval_ContainsUnguarded :
    ContainsUnguarded [] [1] = Outcome.ok false ∧
    ContainsUnguarded [1] [0, 1] = Outcome.ok true := by decide
theorem eval_HasKeyValue :
    HasKeyValue 1 7 sampleMap = Outcome.ok true ∧
    HasKeyValue 3 0 sampleMap = Outcome.ok false ∧
    HasKeyValue 2 0 sampleMap = Outcome.ok true ∧
    HasKeyValue 2 7 sampleMap = Outcome.ok false ∧
    HasKeyValue (GoAny.ints [1]) 0 anyKeyMap = Outcome.panic ∧
    HasKeyValue [97] (GoAny.ints [1]) sliceValueMap = Outcome.panic ∧
    HasKeyValue [97] (GoAny.int 1) sliceValueMap = Outcome.ok false := by decide
theorem eval_Equals :
    Equals (3 : Int) 3 = Outcome.ok true ∧
    Equals (GoAny.ints [1]) (GoAny.ints [1]) = Outcome.panic := by decide

/-! ## Slicing and the substring loop -/

theorem len_nonneg (s : GoString) : 0 ≤ len s := by
  unfold len; exact Int.ofNat_nonneg _

theorem slice_nat (s : GoString) (a b : Nat) (hab : a ≤ b) (hb : b ≤ s.length) :
    slice s (a : Int) (b : Int) = Outcome.ok ((s.drop a).take (b - a)) := by
  unfold slice len
  have h : (0 : Int) ≤ (a : Int) ∧ (a : Int) ≤ (b : Int) ∧ (b : Int) ≤ (s.length : Int) := by
    omega
  rw [if_pos h]
  simp

theorem occursAt_iff_split (sub s : GoString) :
    (∃ j, OccursAt sub s j) ↔ ∃ pre post, s = pre ++ sub ++ post := by
  constructor
  · rintro ⟨j, _, hj⟩
    refine ⟨s.take j, (s.drop j).drop sub.length, ?_⟩
    have h1 : s = s.take j ++ s.drop j := (List.take_append_drop j s).symm
    have h2 : s.drop j = (s.drop j).take sub.length ++ (s.drop j).drop sub.length :=
      (List.take_append_drop _ _).symm
    rw [hj] at h2
    rw [List.append_assoc, ← h2, ← h1]
  · rintro ⟨pre, post, rfl⟩
    refine ⟨pre.length, ?_, ?_⟩
    · simp
    · simp [List.append_assoc]

theorem stringContainsLoop_spec (s sub : GoString) :
    ∀ (fuel i : Nat), i ≤ s.length + 1 → s.length + 2 ≤ fuel + i →
      ∃ b, stringContainsLoop s sub fuel (i : Int) = Outcome.ok b ∧
        (b = true ↔ ∃ j, i ≤ j ∧ OccursAt sub s j) := by
  intro fuel
  induction fuel with
  | zero => intro i h1 h2; omega
  | succ fuel ih =>
    intro i h1 h2
    unfold stringContainsLoop
    by_cases hg : (i : Int) ≤ len s - len sub
    · rw [if_pos hg]
      have hle : i + sub.length ≤ s.length := by unfold len at hg; omega
      have hs : slice s (i : Int) ((i : Int) + len sub)
          = Outcome.ok ((s.drop i).take sub.length) := by
        have := slice_nat s i (i + sub.length) (by omega) hle
        simpa [len] using this
      rw [hs]
      simp only [Outcome.bind]
      by_cases heq : (s.drop i).take sub.length = sub
      · rw [if_pos heq]
        exact ⟨true, rfl, by simpa using ⟨i, le_refl _, hle, heq⟩⟩
      · rw [if_neg heq]
        obtain ⟨b, hb, hiff⟩ := ih (i + 1) (by omega) (by omega)
        refine ⟨b, by simpa using hb, ?_⟩
        rw [hiff]
        constructor
        · rintro ⟨j, hj, hocc⟩; exact ⟨j, by omega, hocc⟩
        · rintro ⟨j, hj, hocc⟩
          refine ⟨j, ?_, hocc⟩
          rcases Nat.eq_or_lt_of_le hj with h | h
          · subst h; exact absurd hocc.2 heq
          · omega
    · rw [if_neg hg]
      refine ⟨false, rfl, ?_⟩
      constructor
      · intro h; cases h
      · rintro ⟨j, hj, hocc, _⟩
        unfold len at hg; omega

theorem stringContains_spec (s sub : GoString) :
    ∃ b, stringContains s sub = Outcome.ok b ∧ (b = true ↔ ∃ j, OccursAt sub s j) := by
  obtain ⟨b, hb, hiff⟩ := stringContainsLoop_spec s sub (s.length + 2) 0 (by omega) (by omega)
  refine ⟨b, by simpa [stringContains] using hb, ?_⟩
  rw [hiff]
  constructor
  · rintro ⟨j, _, h⟩; exact ⟨j, h⟩
  · rintro ⟨j, h⟩; exact ⟨j, Nat.zero_le _, h⟩

theorem Contains_spec (substr s : GoString) :
    ∃ b, Contains substr s = Outcome.ok b ∧
      (b = true ↔ substr ≠ [] ∧ ∃ j, OccursAt substr s j) := by
  unfold Contains Outcome.andThen len
  by_cases h1 : ((substr.length : Int) > 0)
  · have hne : substr ≠ [] := by
      intro h; subst h; simp at h1
    by_cases h2 : ((s.length : Int) > 0)
    · by_cases h3 : ((substr.length : Int) ≤ (s.length : Int))
      · obtain ⟨b, hb, hiff⟩ := stringContains_spec s substr
        refine ⟨b, by simp [h1, h2, h3, hb], ?_⟩
        rw [hiff]
        exact ⟨fun h => ⟨hne, h⟩, fun h => h.2⟩
      · refine ⟨false, by simp [h1, h2, h3], ?_⟩
        constructor
        · intro h; cases h
        · rintro ⟨_, j, hj, _⟩; omega
    · refine ⟨false, by simp [h1, h2], ?_⟩
      constructor
      · intro h; cases h
      · rintro ⟨_, j, hj, _⟩; omega
  · refine ⟨false, by simp [h1], ?_⟩
    constructor
    · intro h; cases h
    · rintro ⟨hne, _⟩
      have : substr.length ≠ 0 := fun h => hne (List.length_eq_zero.mp h)
      omega

theorem StartsWith_spec (pre s : GoString) :
    StartsWith pre s = Outcome.ok (decide (pre.length ≤ s.length ∧ s.take pre.length = pre)) := by
  unfold StartsWith Outcome.andThen len
  by_cases h : pre.length ≤ s.length
  · have hs := slice_nat s 0 pre.length (Nat.zero_le _) h
    have hg : ((s.length : Int) ≥ (pre.length : Int)) := by omega
    simp only [Nat.cast_zero] at hs
    simp [hg, hs, Outcome.map, Outcome.bind, h]
  · have hg : ¬ ((s.length : Int) ≥ (pre.length : Int)) := by omega
    simp [hg, h]

theorem EndsWith_spec (suffix s : GoString) :
    EndsWith suffix s = Outcome.ok
      (decide (suffix.length ≤ s.length ∧ s.drop (s.length - suffix.length) = suffix)) := by
  unfold EndsWith Outcome.andThen len
  by_cases h : suffix.length ≤ s.length
  · have hs := slice_nat s (s.length - suffix.length) s.length (Nat.sub_le _ _) (le_refl _)
    have hg : ((s.length : Int) ≥ (suffix.length : Int)) := by omega
    have hc : ((s.length - suffix.length : Nat) : Int) = (s.length : Int) - (suffix.length : Int) := by
      omega
    rw [hc] at hs
    have hl : (s.drop (s.length - suffix.length)).length = s.length - (s.length - suffix.length) := by
      simp
    have ht : (s.drop (s.length - suffix.length)).take (s.length - (s.length - suffix.length))
        = s.drop (s.length - suffix.length) := by
      rw [← hl]; exact List.take_length _
    rw [ht] at hs
    simp [hg, hs, Outcome.map, Outcome.bind, h]
  · have hg : ¬ ((s.length : Int) ≥ (suffix.length : Int)) := by omega
    simp [hg, h]

theorem take_eq_iff_append (pre s : GoString) :
    (pre.length ≤ s.length ∧ s.take pre.length = pre) ↔ ∃ rest, s = pre ++ rest := by
  constructor
  · rintro ⟨_, h⟩
    refine ⟨s.drop pre.length, ?_⟩
    conv_lhs => rw [← List.take_append_drop pre.length s]
    rw [h]
  · rintro ⟨rest, rfl⟩
    simp

theorem drop_eq_iff_append (suffix s : GoString) :
    (suffix.length ≤ s.length ∧ s.drop (s.length - suffix.length) = suffix)
      ↔ ∃ rest, s = rest ++ suffix := by
  constructor
  · rintro ⟨_, h⟩
    refine ⟨s.take (s.length - suffix.length), ?_⟩
    conv_lhs => rw [← List.take_append_drop (s.length - suffix.length) s]
    rw [h]
  · rintro ⟨rest, rfl⟩
    simp

/-! ## Claims about the string predicates -/

/-- C1: `Contains(substr)(s)` returns, and it returns true exactly when `substr` is
non-empty and `s = pre ++ substr ++ post` for some `pre` and `post`; in particular it
returns false whenever `substr` is longer than `s`. -/
theorem Contains_iff_substring (substr s : GoString) :
    (∃ b, Contains substr s = Outcome.ok b) ∧
    (Contains substr s = Outcome.ok true ↔
      substr ≠ [] ∧ ∃ pre post, s = pre ++ substr ++ post) ∧
    (len substr > len s → Contains substr s = Outcome.ok false) := by
  obtain ⟨b, hb, hiff⟩ := Contains_spec substr s
  rw [occursAt_iff_split] at hiff
  refine ⟨⟨b, hb⟩, ?_, ?_⟩
  · rw [hb, ← hiff]
    constructor
    · intro h; injection h
    · intro h; rw [h]
  · intro hlen
    cases b with
    | false => exact hb
    | true =>
      obtain ⟨_, pre, post, hs⟩ := hiff.mp rfl
      have : s.length = pre.length + substr.length + post.length := by
        rw [hs]; simp [Nat.add_assoc]
      unfold len at hlen
      omega

/-- Witness for C1: a substring longer than the input. -/
theorem Contains_iff_substring_witness :
    len [7, 8, 9] > len [7, 8] ∧ Contains [7, 8, 9] [7, 8] = Outcome.ok false :=
  ⟨by decide, (Contains_iff_substring [7, 8, 9] [7, 8]).2.2 (by decide)⟩

/-- C2: an empty substring never matches, and nothing matches in an empty input:
`Contains("")(s)` and `Contains(substr)("")` both return false. -/
theorem Contains_empty (substr s : GoString) :
    Contains [] s = Outcome.ok false ∧ Contains substr [] = Outcome.ok false := by
  constructor
  · simp [Contains, Outcome.andThen, len]
  · simp [Contains, Outcome.andThen, len]

/-- C3: `StartsWith(prefix)(s)` returns, and it returns true exactly when
`s = prefix ++ rest` for some `rest`; the case `prefix = s` is included. -/
theorem StartsWith_iff_append (pre s : GoString) :
    (∃ b, StartsWith pre s = Outcome.ok b) ∧
    (StartsWith pre s = Outcome.ok true ↔ ∃ rest, s = pre ++ rest) ∧
    StartsWith s s = Outcome.ok true := by
  refine ⟨⟨_, StartsWith_spec pre s⟩, ?_, ?_⟩
  · rw [StartsWith_spec, ← take_eq_iff_append]
    constructor
    · intro h; injection h with h; exact of_decide_eq_true h
    · intro h; rw [decide_eq_true h]
  · rw [StartsWith_spec]; simp

/-- C4: `EndsWith(suffix)(s)` returns, and it returns true exactly when
`s = rest ++ suffix` for some `rest`; the case `suffix = s` is included. -/
theorem EndsWith_iff_append (suffix s : GoString) :
    (∃ b, EndsWith suffix s = Outcome.ok b) ∧
    (EndsWith suffix s = Outcome.ok true ↔ ∃ rest, s = rest ++ suffix) ∧
    EndsWith s s = Outcome.ok true := by
  refine ⟨⟨_, EndsWith_spec suffix s⟩, ?_, ?_⟩
  · rw [EndsWith_spec, ← drop_eq_iff_append]
    constructor
    · intro h; injection h with h; exact of_decide_eq_true h
    · intro h; rw [decide_eq_true h]
  · rw [EndsWith_spec]; simp

/-- C5: for every string `s`, the empty one included, `StartsWith("")(s)` and
`EndsWith("")(s)` both return true. -/
theorem StartsWith_EndsWith_empty (s : GoString) :
    StartsWith [] s = Outcome.ok true ∧ EndsWith [] s = Outcome.ok true := by
  constructor
  · rw [StartsWith_spec]; simp
  · rw [EndsWith_spec]; simp

/-! ## Claims about the integer predicates and `Not` -/

/-- C6: when `min <= max`, `Between(min, max)(x)` is true exactly when
`min <= x` and `x <= max`, both bounds included; when `min > max` it is false
for every `x`. -/
theorem Between_spec (min max x : Int) :
    (min ≤ max → (Between min max x = true ↔ min ≤ x ∧ x ≤ max)) ∧
    (min > max → Between min max x = false) := by
  constructor
  · intro _
    simp [Between]
  · intro h
    simp only [Between, Bool.and_eq_false_iff, decide_eq_false_iff_not]
    omega

/-- Witness for C6: an ordered pair of bounds with both end points, and a reversed pair. -/
theorem Between_spec_witness :
    ((1 : Int) ≤ 5 ∧ (Between 1 5 1 = true ↔ (1 : Int) ≤ 1 ∧ (1 : Int) ≤ 5)) ∧
    ((1 : Int) ≤ 5 ∧ (Between 1 5 5 = true ↔ (1 : Int) ≤ 5 ∧ (5 : Int) ≤ 5)) ∧
    ((5 : Int) > 1 ∧ Between 5 1 3 = false) :=
  ⟨⟨by decide, (Between_spec 1 5 1).1 (by decide)⟩,
   ⟨by decide, (Between_spec 1 5 5).1 (by decide)⟩,
   ⟨by decide, (Between_spec 5 1 3).2 (by decide)⟩⟩

/-- C7: for every integer `x` (zero and negative values included), `IsEven()(x)`
is true exactly when `x = 2 * k` for some integer `k`; `%` is the truncated
remainder. -/
theorem IsEven_iff_multiple (x : Int) : IsEven x = true ↔ ∃ k : Int, x = 2 * k := by
  simp only [IsEven, decide_eq_true_eq]
  constructor
  · intro h
    exact ⟨x.tdiv 2, by have := Int.tdiv_add_tmod x 2; omega⟩
  · rintro ⟨k, rfl⟩
    simp

/-- C8: `Not(p)(x)` is the negation of `p(x)`: it returns `!b` when `p(x)` returns `b`
and fails when `p(x)` fails; negating twice gives back the result of `p(x)`. -/
theorem Not_spec {T : Type} (p : Func T) (q : T → Bool) (x : T) :
    Not p x = (Func.call p x).map (fun b => !b) ∧
    Not (some fun y => Outcome.ok (q y)) x = Outcome.ok (!(q x)) ∧
    Not (some (Not p)) x = Func.call p x := by
  refine ⟨rfl, rfl, ?_⟩
  simp only [Not, Func.call]
  cases p with
  | none => rfl
  | some f =>
    simp only [Outcome.map, Outcome.bind]
    cases f x <;> simp

/-! ## The loop of `In` -/

theorem InLoop_cons {T : Type} [GoComparable T] (v : T) (rest : List T) (x : T) :
    InLoop (v :: rest) x =
      match GoComparable.eq v x with
      | some true => Outcome.ok true
      | some false => InLoop rest x
      | none => Outcome.panic := by
  rw [InLoop, goEq]
  cases h : GoComparable.eq v x with
  | none => rfl
  | some b => cases b <;> rfl

theorem InLoop_true_iff {T : Type} [GoComparable T] (l : List T) (x : T) :
    InLoop l x = Outcome.ok true ↔
      ∃ pre v post, l = pre ++ v :: post ∧ GoComparable.eq v x = some true ∧
        ∀ u, u ∈ pre → GoComparable.eq u x = some false := by
  induction l with
  | nil =>
    constructor
    · intro h; simp [InLoop] at h
    · rintro ⟨pre, v, post, h, _⟩
      exact absurd h (by simp)
  | cons a rest ih =>
    rw [InLoop_cons]
    cases ha : GoComparable.eq a x with
    | none =>
      constructor
      · intro h; cases h
      · rintro ⟨pre, v, post, hl, hv, hpre⟩
        cases pre with
        | nil =>
          simp only [List.nil_append, List.cons.injEq] at hl
          rw [hl.1, hv] at ha; cases ha
        | cons u pre =>
          simp only [List.cons_append, List.cons.injEq] at hl
          have := hpre u (List.mem_cons_self _ _)
          rw [← hl.1, ha] at this; cases this
    | some b =>
      cases b with
      | true =>
        simp only [true_iff]
        exact ⟨[], a, rest, rfl, ha, fun u hu => absurd hu (List.not_mem_nil u)⟩
      | false =>
        simp only
        rw [ih]
        constructor
        · rintro ⟨pre, v, post, hl, hv, hpre⟩
          refine ⟨a :: pre, v, post, by rw [hl]; rfl, hv, ?_⟩
          intro u hu
          rcases List.mem_cons.mp hu with rfl | hu
          · exact ha
          · exact hpre u hu
        · rintro ⟨pre, v, post, hl, hv, hpre⟩
          cases pre with
          | nil =>
            simp only [List.nil_append, List.cons.injEq] at hl
            rw [hl.1, hv] at ha; cases ha
          | cons u pre =>
            simp only [List.cons_append, List.cons.injEq] at hl
            exact ⟨pre, v, post, hl.2, hv, fun w hw => hpre w (List.mem_cons_of_mem _ hw)⟩

theorem InLoop_panic_iff {T : Type} [GoComparable T] (l : List T) (x : T) :
    InLoop l x = Outcome.panic ↔
      ∃ pre v post, l = pre ++ v :: post ∧ GoComparable.eq v x = none ∧
        ∀ u, u ∈ pre → GoComparable.eq u x = some false := by
  induction l with
  | nil =>
    constructor
    · intro h; simp [InLoop] at h
    · rintro ⟨pre, v, post, h, _⟩
      exact absurd h (by simp)
  | cons a rest ih =>
    rw [InLoop_cons]
    cases ha : GoComparable.eq a x with
    | none =>
      simp only [true_iff]
      exact ⟨[], a, rest, rfl, ha, fun u hu => absurd hu (List.not_mem_nil u)⟩
    | some b =>
      cases b with
      | true =>
        constructor
        · intro h; cases h
        · rintro ⟨pre, v, post, hl, hv, hpre⟩
          cases pre with
          | nil =>
            simp only [List.nil_append, List.cons.injEq] at hl
            rw [hl.1, hv] at ha; cases ha
          | cons u pre =>
            simp only [List.cons_append, List.cons.injEq] at hl
            have := hpre u (List.mem_cons_self _ _)
            rw [← hl.1, ha] at this; cases this
      | false =>
        simp only
        rw [ih]
        constructor
        · rintro ⟨pre, v, post, hl, hv, hpre⟩
          refine ⟨a :: pre, v, post, by rw [hl]; rfl, hv, ?_⟩
          intro u hu
          rcases List.mem_cons.mp hu with rfl | hu
          · exact ha
          · exact hpre u hu
        · rintro ⟨pre, v, post, hl, hv, hpre⟩
          cases pre with
          | nil =>
            simp only [List.nil_append, List.cons.injEq] at hl
            rw [hl.1, hv] at ha; cases ha
          | cons u pre =>
            simp only [List.cons_append, List.cons.injEq] at hl
            exact ⟨pre, v, post, hl.2, hv, fun w hw => hpre w (List.mem_cons_of_mem _ hw)⟩

theorem InLoop_false_iff {T : Type} [GoComparable T] (l : List T) (x : T) :
    InLoop l x = Outcome.ok false ↔ ∀ v, v ∈ l → GoComparable.eq v x = some false := by
  induction l with
  | nil => simp [InLoop]
  | cons a rest ih =>
    rw [InLoop_cons]
    cases ha : GoComparable.eq a x with
    | none =>
      constructor
      · intro h; cases h
      · intro h
        have := h a (List.mem_cons_self _ _)
        rw [ha] at this; cases this
    | some b =>
      cases b with
      | true =>
        constructor
        · intro h; cases h
        · intro h
          have := h a (List.mem_cons_self _ _)
          rw [ha] at this; cases this
      | false =>
        simp only
        rw [ih]
        constructor
        · intro h v hv
          rcases List.mem_cons.mp hv with rfl | hv
          · exact ha
          · exact h v hv
        · intro h v hv
          exact h v (List.mem_cons_of_mem _ hv)

theorem InLoop_ne_outOfFuel {T : Type} [GoComparable T] (l : List T) (x : T) :
    InLoop l x ≠ Outcome.outOfFuel := by
  induction l with
  | nil => simp [InLoop]
  | cons a rest ih =>
    rw [InLoop_cons]
    cases ha : GoComparable.eq a x with
    | none => simp
    | some b => cases b <;> simp [ih]

theorem InLoop_of_no_panic {T : Type} [GoComparable T] (l : List T) (x : T)
    (h : ∀ v, v ∈ l → GoComparable.eq v x ≠ none) :
    ∃ b, InLoop l x = Outcome.ok b ∧
      (b = true ↔ ∃ v, v ∈ l ∧ GoComparable.eq v x = some true) := by
  cases hr : InLoop l x with
  | ok b =>
    refine ⟨b, rfl, ?_⟩
    cases b with
    | true =>
      simp only [true_iff]
      obtain ⟨pre, v, post, hl, hv, _⟩ := (InLoop_true_iff l x).mp hr
      exact ⟨v, by rw [hl]; simp, hv⟩
    | false =>
      simp only [Bool.false_eq_true, false_iff]
      rintro ⟨v, hv, hvx⟩
      have := (InLoop_false_iff l x).mp hr v hv
      rw [hvx] at this; cases this
  | panic =>
    obtain ⟨pre, v, post, hl, hv, _⟩ := (InLoop_panic_iff l x).mp hr
    exact absurd hv (h v (by rw [hl]; simp))
  | outOfFuel => exact absurd hr (InLoop_ne_outOfFuel l x)

theorem InLoop_of_no_match {T : Type} [GoComparable T] (l : List T) (x : T)
    (h : ∀ v, v ∈ l → GoComparable.eq v x ≠ some true) :
    (InLoop l x = Outcome.ok false ∧ ∀ v, v ∈ l → GoComparable.eq v x = some false) ∨
    (InLoop l x = Outcome.panic ∧ ∃ v, v ∈ l ∧ GoComparable.eq v x = none) := by
  cases hr : InLoop l x with
  | ok b =>
    cases b with
    | true =>
      obtain ⟨pre, v, post, hl, hv, _⟩ := (InLoop_true_iff l x).mp hr
      exact absurd hv (h v (by rw [hl]; simp))
    | false => exact Or.inl ⟨rfl, (InLoop_false_iff l x).mp hr⟩
  | panic =>
    obtain ⟨pre, v, post, hl, hv, _⟩ := (InLoop_panic_iff l x).mp hr
    exact Or.inr ⟨rfl, v, by rw [hl]; simp, hv⟩
  | outOfFuel => exact absurd hr (InLoop_ne_outOfFuel l x)

theorem InLoop_perm {T : Type} [GoComparable T] (l₁ l₂ : List T) (x : T)
    (hp : l₁.Perm l₂)
    (h : (∀ v, v ∈ l₂ → GoComparable.eq v x ≠ some true) ∨
         (∀ v, v ∈ l₂ → GoComparable.eq v x ≠ none)) :
    InLoop l₁ x = InLoop l₂ x := by
  rcases h with h | h
  · have h1 : ∀ v, v ∈ l₁ → GoComparable.eq v x ≠ some true :=
      fun v hv => h v (hp.mem_iff.mp hv)
    rcases InLoop_of_no_match l₁ x h1 with ⟨r1, a1⟩ | ⟨r1, v1, m1, e1⟩ <;>
      rcases InLoop_of_no_match l₂ x h with ⟨r2, a2⟩ | ⟨r2, v2, m2, e2⟩
    · rw [r1, r2]
    · have := a1 v2 (hp.mem_iff.mpr m2)
      rw [e2] at this; cases this
    · have := a2 v1 (hp.mem_iff.mp m1)
      rw [e1] at this; cases this
    · rw [r1, r2]
  · have h1 : ∀ v, v ∈ l₁ → GoComparable.eq v x ≠ none :=
      fun v hv => h v (hp.mem_iff.mp hv)
    obtain ⟨b1, r1, i1⟩ := InLoop_of_no_panic l₁ x h1
    obtain ⟨b2, r2, i2⟩ := InLoop_of_no_panic l₂ x h
    have hb : b1 = b2 := by
      rw [Bool.eq_iff_iff, i1, i2]
      constructor
      · rintro ⟨v, hv, hvx⟩; exact ⟨v, hp.mem_iff.mp hv, hvx⟩
      · rintro ⟨v, hv, hvx⟩; exact ⟨v, hp.mem_iff.mpr hv, hvx⟩
    rw [r1, r2, hb]

theorem InLoop_int (ns : List Int) (n : Int) :
    InLoop ns n = Outcome.ok (decide (n ∈ ns)) := by
  induction ns with
  | nil => simp [InLoop]
  | cons a rest ih =>
    rw [InLoop_cons, ih]
    by_cases h : a = n
    · subst h; simp [GoComparable.eq]
    · have h2 : ¬ n = a := fun e => h e.symm
      simp [GoComparable.eq, h, h2]

theorem InLoop_string (ss : List GoString) (s : GoString) :
    InLoop ss s = Outcome.ok (decide (s ∈ ss)) := by
  induction ss with
  | nil => simp [InLoop]
  | cons a rest ih =>
    rw [InLoop_cons, ih]
    by_cases h : a = s
    · subst h; simp [GoComparable.eq]
    · have h2 : ¬ s = a := fun e => h e.symm
      simp [GoComparable.eq, h, h2]

/-! ## Claim about `In` -/

/-- C9, as stated, fails: the list `[]any{[]int{1}}` holds an element equal to
`x = []int{1}`, and `In(list)(x)` is not true: the comparison `v == x` panics. -/
theorem In_uncomparable_panics :
    (∃ v, v ∈ [GoAny.ints [1]] ∧ v = GoAny.ints [1]) ∧
    In [GoAny.ints [1]] (GoAny.ints [1]) = Outcome.panic ∧
    ¬ ∃ b, In [GoAny.ints [1]] (GoAny.ints [1]) = Outcome.ok b := by
  refine ⟨⟨_, List.mem_singleton.mpr rfl, rfl⟩, by decide, ?_⟩
  rintro ⟨b, hb⟩
  have h : In [GoAny.ints [1]] (GoAny.ints [1]) = Outcome.panic := by decide
  rw [h] at hb
  cases hb

/-- C9, amended: `In` of the empty list is false.  `In(list)(x)` returns true exactly
when some element `v` has `v == x` true and every element before it compares unequal
to `x`; it returns false exactly when every element compares unequal; it panics
exactly when a comparison panics before any element compares equal.  When no
comparison with `x` panics, it returns a boolean that is true exactly when at least
one element equals `x`; this is always so for lists of `int` and of `string`. -/
theorem In_spec {T : Type} [GoComparable T] (list : List T) (x : T)
    (ns : List Int) (n : Int) (ss : List GoString) (s : GoString) :
    In ([] : List T) x = Outcome.ok false ∧
    (In list x = Outcome.ok true ↔
      ∃ pre v post, list = pre ++ v :: post ∧ GoComparable.eq v x = some true ∧
        ∀ u, u ∈ pre → GoComparable.eq u x = some false) ∧
    (In list x = Outcome.ok false ↔ ∀ v, v ∈ list → GoComparable.eq v x = some false) ∧
    (In list x = Outcome.panic ↔
      ∃ pre v post, list = pre ++ v :: post ∧ GoComparable.eq v x = none ∧
        ∀ u, u ∈ pre → GoComparable.eq u x = some false) ∧
    ((∀ v, v ∈ list → GoComparable.eq v x ≠ none) →
      ∃ b, In list x = Outcome.ok b ∧
        (b = true ↔ ∃ v, v ∈ list ∧ GoComparable.eq v x = some true)) ∧
    In ns n = Outcome.ok (decide (n ∈ ns)) ∧
    In ss s = Outcome.ok (decide (s ∈ ss)) :=
  ⟨rfl, InLoop_true_iff list x, InLoop_false_iff list x, InLoop_panic_iff list x,
   InLoop_of_no_panic list x, InLoop_int ns n, InLoop_string ss s⟩

/-- Witness for the amended C9: in `[]any{1, []int{1}}` no element panics when
compared with the `int` 2, and none equals it. -/
theorem In_spec_witness :
    (∀ v, v ∈ [GoAny.int 1, GoAny.ints [1]] → GoComparable.eq v (GoAny.int 2) ≠ none) ∧
    ∃ b, In [GoAny.int 1, GoAny.ints [1]] (GoAny.int 2) = Outcome.ok b ∧
      (b = true ↔
        ∃ v, v ∈ [GoAny.int 1, GoAny.ints [1]] ∧ GoComparable.eq v (GoAny.int 2) = some true) :=
  ⟨by decide,
   (In_spec [GoAny.int 1, GoAny.ints [1]] (GoAny.int 2) [] 0 [] []).2.2.2.2.1 (by decide)⟩

/-! ## Map lookup -/

theorem lookupEntry_some {K V : Type} [GoComparable K] (key : K) (w : V) :
    ∀ es : List (K × V), lookupEntry key es = some w →
      ∃ k, (k, w) ∈ es ∧ GoComparable.eq k key = some true := by
  intro es
  induction es with
  | nil => intro h; simp [lookupEntry] at h
  | cons e rest ih =>
    obtain ⟨k, u⟩ := e
    intro h
    unfold lookupEntry at h
    by_cases hk : GoComparable.eq k key = some true
    · rw [if_pos hk] at h
      injection h with h
      subst h
      exact ⟨k, List.mem_cons_self _ _, hk⟩
    · rw [if_neg hk] at h
      obtain ⟨k1, hmem, hk1⟩ := ih h
      exact ⟨k1, List.mem_cons_of_mem _ hmem, hk1⟩

theorem lookupEntry_none_iff {K V : Type} [GoComparable K] (key : K) :
    ∀ es : List (K × V), lookupEntry key es = none ↔
      ∀ e, e ∈ es → GoComparable.eq e.1 key ≠ some true := by
  intro es
  induction es with
  | nil => simp [lookupEntry]
  | cons e rest ih =>
    obtain ⟨k, u⟩ := e
    unfold lookupEntry
    by_cases hk : GoComparable.eq k key = some true
    · rw [if_pos hk]
      constructor
      · intro h; cases h
      · intro h; exact absurd hk (h (k, u) (List.mem_cons_self _ _))
    · rw [if_neg hk, ih]
      constructor
      · intro h e he
        rcases List.mem_cons.mp he with rfl | he
        · exact hk
        · exact h e he
      · intro h e he
        exact h e (List.mem_cons_of_mem _ he)

theorem lookupEntry_of_match {K V : Type} [GoComparable K] (key k : K) (w : V) :
    ∀ es : List (K × V),
      es.Pairwise (fun a b =>
        ¬ (GoComparable.eq a.1 key = some true ∧ GoComparable.eq b.1 key = some true)) →
      (k, w) ∈ es → GoComparable.eq k key = some true → lookupEntry key es = some w := by
  intro es
  induction es with
  | nil => intro _ h; simp at h
  | cons e rest ih =>
    obtain ⟨k1, u⟩ := e
    intro hpw hmem hk
    rw [List.pairwise_cons] at hpw
    unfold lookupEntry
    rcases List.mem_cons.mp hmem with heq | hrest
    · injection heq with h1 h2
      subst h1; subst h2
      rw [if_pos hk]
    · have hne : ¬ GoComparable.eq k1 key = some true := by
        intro h1
        exact hpw.1 (k, w) hrest ⟨h1, hk⟩
      rw [if_neg hne]
      exact ih hpw.2 hrest hk

theorem index_of_unhashable {K V : Type} [GoComparable K] [Inhabited V] (m : GoMap K V)
    (key : K) (h : GoComparable.hashable key = false) : m.index key = Outcome.panic := by
  simp [GoMap.index, h]

theorem index_of_absent {K V : Type} [GoComparable K] [Inhabited V] (m : GoMap K V)
    (key : K) (h : GoComparable.hashable key = true)
    (habs : ∀ e, e ∈ m.entries → GoComparable.eq e.1 key ≠ some true) :
    m.index key = Outcome.ok (default, false) := by
  have hl := (lookupEntry_none_iff key m.entries).mpr habs
  simp [GoMap.index, h, hl]

theorem index_of_present {K V : Type} [GoComparable K] [Inhabited V] (m : GoMap K V)
    (key k : K) (w : V) (h : GoComparable.hashable key = true)
    (hmem : (k, w) ∈ m.entries) (hk : GoComparable.eq k key = some true) :
    m.index key = Outcome.ok (w, true) := by
  have hl := lookupEntry_of_match key k w m.entries (m.uniqueMatch key) hmem hk
  simp [GoMap.index, h, hl]

theorem index_cases {K V : Type} [GoComparable K] [Inhabited V] (m : GoMap K V) (key : K) :
    (GoComparable.hashable key = false ∧ m.index key = Outcome.panic) ∨
    (GoComparable.hashable key = true ∧
      (∀ e, e ∈ m.entries → GoComparable.eq e.1 key ≠ some true) ∧
      m.index key = Outcome.ok (default, false)) ∨
    (GoComparable.hashable key = true ∧
      ∃ k w, (k, w) ∈ m.entries ∧ GoComparable.eq k key = some true ∧
        m.index key = Outcome.ok (w, true)) := by
  cases hh : GoComparable.hashable key with
  | false => exact Or.inl ⟨rfl, index_of_unhashable m key hh⟩
  | true =>
    right
    cases hl : lookupEntry key m.entries with
    | none =>
      have habs := (lookupEntry_none_iff key m.entries).mp hl
      exact Or.inl ⟨rfl, habs, index_of_absent m key hh habs⟩
    | some w =>
      obtain ⟨k, hmem, hk⟩ := lookupEntry_some key w m.entries hl
      exact Or.inr ⟨rfl, k, w, hmem, hk, index_of_present m key k w hh hmem hk⟩

theorem goEq_ok_iff {T : Type} [GoComparable T] (a b : T) (c : Bool) :
    goEq a b = Outcome.ok c ↔ GoComparable.eq a b = some c := by
  unfold goEq
  cases h : GoComparable.eq a b with
  | none => simp
  | some d => simp

theorem HasKeyValue_of_unhashable {K V : Type} [GoComparable K] [GoComparable V]
    [Inhabited V] (k : K) (v : V) (m : GoMap K V)
    (h : GoComparable.hashable k = false) : HasKeyValue k v m = Outcome.panic := by
  simp [HasKeyValue, index_of_unhashable m k h, Outcome.bind]

theorem HasKeyValue_of_absent {K V : Type} [GoComparable K] [GoComparable V]
    [Inhabited V] (k : K) (v : V) (m : GoMap K V)
    (h : GoComparable.hashable k = true)
    (habs : ∀ e, e ∈ m.entries → GoComparable.eq e.1 k ≠ some true) :
    HasKeyValue k v m = Outcome.ok false := by
  simp [HasKeyValue, index_of_absent m k h habs, Outcome.bind, Outcome.andThen]

theorem HasKeyValue_of_present {K V : Type} [GoComparable K] [GoComparable V]
    [Inhabited V] (k j : K) (v w : V) (m : GoMap K V)
    (h : GoComparable.hashable k = true) (hmem : (j, w) ∈ m.entries)
    (hj : GoComparable.eq j k = some true) :
    HasKeyValue k v m = goEq w v := by
  simp [HasKeyValue, index_of_present m k j w h hmem hj, Outcome.bind, Outcome.andThen]

/-! ## Claims about the map predicates -/

/-- C10, as stated, fails: in `map[any]int{1: 1}` the key `[]int{1}` is absent, and
`HasKeyValue([]int{1}, 0)(m)` is not false: hashing the key panics. -/
theorem HasKeyValue_unhashable_key_panics :
    (∀ e, e ∈ anyKeyMap.entries → e.1 ≠ GoAny.ints [1]) ∧
    HasKeyValue (GoAny.ints [1]) 0 anyKeyMap = Outcome.panic ∧
    HasKeyValue (GoAny.ints [1]) 0 anyKeyMap ≠ Outcome.ok false := by
  refine ⟨by decide, by decide, ?_⟩
  have h : HasKeyValue (GoAny.ints [1]) 0 anyKeyMap = Outcome.panic := by decide
  rw [h]
  intro hc
  cases hc

/-- C10, amended: for an unhashable key `HasKeyValue(k, v)(m)` panics.  It returns
true exactly when `k` is hashable and `m` has an entry whose key equals `k` and whose
value `w` has `w == v` true.  For a hashable key that is absent it returns false, for
`v` the zero value too; for a hashable key mapped to `w` it is the result of `w == v`:
false when the values differ, a panic when that comparison panics. -/
theorem HasKeyValue_spec {K V : Type} [GoComparable K] [GoComparable V] [Inhabited V]
    (k : K) (v : V) (m : GoMap K V) :
    (GoComparable.hashable k = false → HasKeyValue k v m = Outcome.panic) ∧
    (HasKeyValue k v m = Outcome.ok true ↔
      GoComparable.hashable k = true ∧
      ∃ j w, (j, w) ∈ m.entries ∧ GoComparable.eq j k = some true ∧
        GoComparable.eq w v = some true) ∧
    (GoComparable.hashable k = true →
      (∀ e, e ∈ m.entries → GoComparable.eq e.1 k ≠ some true) →
      HasKeyValue k v m = Outcome.ok false ∧
      HasKeyValue k (default : V) m = Outcome.ok false) ∧
    (∀ j w, GoComparable.hashable k = true → (j, w) ∈ m.entries →
      GoComparable.eq j k = some true →
      HasKeyValue k v m = goEq w v ∧
      (GoComparable.eq w v = some false → HasKeyValue k v m = Outcome.ok false)) := by
  refine ⟨HasKeyValue_of_unhashable k v m, ?_, ?_, ?_⟩
  · constructor
    · intro htrue
      rcases index_cases m k with ⟨hh, _⟩ | ⟨hh, habs, _⟩ | ⟨hh, j, w, hmem, hj, _⟩
      · rw [HasKeyValue_of_unhashable k v m hh] at htrue; cases htrue
      · rw [HasKeyValue_of_absent k v m hh habs] at htrue; cases htrue
      · rw [HasKeyValue_of_present k j v w m hh hmem hj] at htrue
        exact ⟨hh, j, w, hmem, hj, (goEq_ok_iff w v true).mp htrue⟩
    · rintro ⟨hh, j, w, hmem, hj, hw⟩
      rw [HasKeyValue_of_present k j v w m hh hmem hj]
      exact (goEq_ok_iff w v true).mpr hw
  · intro hh habs
    exact ⟨HasKeyValue_of_absent k v m hh habs, HasKeyValue_of_absent k default m hh habs⟩
  · intro j w hh hmem hj
    have hp := HasKeyValue_of_present k j v w m hh hmem hj
    refine ⟨hp, ?_⟩
    intro hw
    rw [hp]
    exact (goEq_ok_iff w v false).mpr hw

/-- Witness for the amended C10 on `{1: 7, 2: 0}`: key 3 is absent and is not found
with the zero value 0; key 1 is mapped to 7, not to 5.  On `{"a": []int{1}}` the
value comparison with `[]int{1}` panics. -/
theorem HasKeyValue_spec_witness :
    ((GoComparable.hashable (3 : Int) = true ∧
      ∀ e, e ∈ sampleMap.entries → GoComparable.eq e.1 (3 : Int) ≠ some true) ∧
      HasKeyValue 3 0 sampleMap = Outcome.ok false) ∧
    ((GoComparable.hashable (1 : Int) = true ∧ ((1 : Int), (7 : Int)) ∈ sampleMap.entries ∧
      GoComparable.eq (1 : Int) 1 = some true ∧ GoComparable.eq (7 : Int) 5 = some false) ∧
      HasKeyValue 1 5 sampleMap = Outcome.ok false) ∧
    HasKeyValue [97] (GoAny.ints [1]) sliceValueMap
      = goEq (GoAny.ints [1]) (GoAny.ints [1]) :=
  ⟨⟨⟨rfl, by decide⟩, ((HasKeyValue_spec 3 0 sampleMap).2.2.1 rfl (by decide)).1⟩,
   ⟨⟨rfl, by decide, by decide, by decide⟩,
    ((HasKeyValue_spec 1 5 sampleMap).2.2.2 1 7 rfl (by decide) (by decide)).2 (by decide)⟩,
   ((HasKeyValue_spec [97] (GoAny.ints [1]) sliceValueMap).2.2.2 [97] (GoAny.ints [1])
      rfl (by decide) (by decide)).1⟩

theorem HasValueLoop_eq_InLoop {K V : Type} [GoComparable V] (v : V) (es : List (K × V)) :
    HasValueLoop v es = InLoop (es.map Prod.snd) v := by
  induction es with
  | nil => rfl
  | cons e rest ih =>
    obtain ⟨k, w⟩ := e
    simp only [HasValueLoop, List.map_cons, InLoop, ih]

theorem mem_map_snd_iff {K V : Type} (es : List (K × V)) (w : V) :
    w ∈ es.map Prod.snd ↔ ∃ k, (k, w) ∈ es := by
  constructor
  · intro h
    obtain ⟨e, he, hw⟩ := List.mem_map.mp h
    obtain ⟨k, u⟩ := e
    simp only at hw
    subst hw
    exact ⟨k, he⟩
  · rintro ⟨k, hk⟩
    exact List.mem_map.mpr ⟨(k, w), hk, rfl⟩

theorem GoAny_match_or_panic (x : GoAny) (l : List GoAny) :
    (∀ v, v ∈ l → GoComparable.eq v x ≠ some true) ∨
    (∀ v, v ∈ l → GoComparable.eq v x ≠ none) := by
  cases x with
  | ints xs =>
    left
    intro v _
    cases v <;> simp [GoComparable.eq, GoAny.eq]
  | nil => right; intro v _; cases v <;> simp [GoComparable.eq, GoAny.eq]
  | int n => right; intro v _; cases v <;> simp [GoComparable.eq, GoAny.eq]
  | str s => right; intro v _; cases v <;> simp [GoComparable.eq, GoAny.eq]
  | nan => right; intro v _; cases v <;> simp [GoComparable.eq, GoAny.eq]

/-- C11, as stated, fails: in `map[string]any{"a": []int{1}}` the key `a` is mapped to
a value equal to `v = []int{1}`, and `HasValue(v)(m)` is not true: the comparison
panics. -/
theorem HasValue_uncomparable_panics :
    (∃ k w, (k, w) ∈ sliceValueMap.entries ∧ w = GoAny.ints [1]) ∧
    HasValue (GoAny.ints [1]) sliceValueMap = Outcome.panic ∧
    ¬ ∃ b, HasValue (GoAny.ints [1]) sliceValueMap = Outcome.ok b := by
  refine ⟨⟨[97], GoAny.ints [1], by decide, rfl⟩, by decide, ?_⟩
  rintro ⟨b, hb⟩
  have h : HasValue (GoAny.ints [1]) sliceValueMap = Outcome.panic := by decide
  rw [h] at hb
  cases hb

/-- C11, amended: let `order` be any order in which the entries of `m` are iterated.
If `HasValue(v)(m)` returns true, some value `w` of `m` has `w == v` true; it returns
false exactly when every value compares unequal to `v`.  When no comparison panics,
it returns a boolean that is true exactly when some key is mapped to a value equal to
`v`.  The result, a panic included, is the same for every order whenever no value
compares equal to `v` or no comparison panics; for values of type `any` that is always
the case. -/
theorem HasValue_spec {K V : Type} [GoComparable K] [GoComparable V] (v : V)
    (m : GoMap K V) (order : List (K × V)) (a : GoAny) (ma : GoMap K GoAny)
    (oa : List (K × GoAny)) (h : order.Perm m.entries) (ha : oa.Perm ma.entries) :
    (HasValueLoop v order = Outcome.ok true →
      ∃ k w, (k, w) ∈ m.entries ∧ GoComparable.eq w v = some true) ∧
    (HasValueLoop v order = Outcome.ok false ↔
      ∀ e, e ∈ m.entries → GoComparable.eq e.2 v = some false) ∧
    ((∀ e, e ∈ m.entries → GoComparable.eq e.2 v ≠ none) →
      ∃ b, HasValueLoop v order = Outcome.ok b ∧
        (b = true ↔ ∃ k w, (k, w) ∈ m.entries ∧ GoComparable.eq w v = some true)) ∧
    (((∀ e, e ∈ m.entries → GoComparable.eq e.2 v ≠ some true) ∨
      (∀ e, e ∈ m.entries → GoComparable.eq e.2 v ≠ none)) →
      HasValueLoop v order = HasValue v m) ∧
    HasValueLoop a oa = HasValue a ma := by
  have hp : (order.map Prod.snd).Perm (m.entries.map Prod.snd) := h.map _
  have hmem : ∀ w, w ∈ order.map Prod.snd ↔ ∃ k, (k, w) ∈ m.entries := by
    intro w
    rw [hp.mem_iff, mem_map_snd_iff]
  refine ⟨?_, ?_, ?_, ?_, ?_⟩
  · intro htrue
    rw [HasValueLoop_eq_InLoop] at htrue
    obtain ⟨pre, w, post, hl, hw, _⟩ := (InLoop_true_iff _ v).mp htrue
    obtain ⟨k, hk⟩ := (hmem w).mp (by rw [hl]; simp)
    exact ⟨k, w, hk, hw⟩
  · rw [HasValueLoop_eq_InLoop, InLoop_false_iff]
    constructor
    · intro hall e he
      exact hall e.2 ((hmem e.2).mpr ⟨e.1, he⟩)
    · intro hall w hw
      obtain ⟨k, hk⟩ := (hmem w).mp hw
      exact hall (k, w) hk
  · intro hnp
    rw [HasValueLoop_eq_InLoop]
    obtain ⟨b, hb, hiff⟩ := InLoop_of_no_panic (order.map Prod.snd) v (by
      intro w hw
      obtain ⟨k, hk⟩ := (hmem w).mp hw
      exact hnp (k, w) hk)
    refine ⟨b, hb, ?_⟩
    rw [hiff]
    constructor
    · rintro ⟨w, hw, hwv⟩
      obtain ⟨k, hk⟩ := (hmem w).mp hw
      exact ⟨k, w, hk, hwv⟩
    · rintro ⟨k, w, hk, hwv⟩
      exact ⟨w, (hmem w).mpr ⟨k, hk⟩, hwv⟩
  · intro hcond
    unfold HasValue
    rw [HasValueLoop_eq_InLoop, HasValueLoop_eq_InLoop]
    apply InLoop_perm _ _ v hp
    rcases hcond with hc | hc
    · left
      intro w hw
      obtain ⟨k, hk⟩ := (mem_map_snd_iff m.entries w).mp hw
      exact hc (k, w) hk
    · right
      intro w hw
      obtain ⟨k, hk⟩ := (mem_map_snd_iff m.entries w).mp hw
      exact hc (k, w) hk
  · unfold HasValue
    rw [HasValueLoop_eq_InLoop, HasValueLoop_eq_InLoop]
    exact InLoop_perm _ _ a (ha.map _) (GoAny_match_or_panic a _)

/-- Witness for the amended C11: the entries of `{"a": []int{1}, "b": 5}` iterated
in the order `b`, `a`; compared with `[]int{2}` the first order panics at once, the
second after one unequal comparison, and compared with `5` both orders agree on
true. -/
theorem HasValue_spec_witness :
    List.Perm [(([98] : GoString), GoAny.int 5), ([97], GoAny.ints [1])]
      mixedValueMap.entries ∧
    HasValueLoop (GoAny.ints [2]) [(([98] : GoString), GoAny.int 5), ([97], GoAny.ints [1])]
      = HasValue (GoAny.ints [2]) mixedValueMap ∧
    HasValue (GoAny.ints [2]) mixedValueMap = Outcome.panic ∧
    HasValueLoop (GoAny.int 5) [(([98] : GoString), GoAny.int 5), ([97], GoAny.ints [1])]
      = HasValue (GoAny.int 5) mixedValueMap ∧
    HasValue (GoAny.int 5) mixedValueMap = Outcome.ok true :=
  ⟨List.Perm.swap _ _ _,
   (HasValue_spec (GoAny.ints [2]) mixedValueMap _ (GoAny.ints [2]) mixedValueMap _
      (List.Perm.swap _ _ _) (List.Perm.swap _ _ _)).2.2.2.2,
   by decide,
   (HasValue_spec (GoAny.int 5) mixedValueMap _ (GoAny.int 5) mixedValueMap _
      (List.Perm.swap _ _ _) (List.Perm.swap _ _ _)).2.2.2.1 (Or.inr (by decide)),
   by decide⟩

theorem HasKey_cases {K V : Type} [GoComparable K] [Inhabited V] (k : K) (m : GoMap K V) :
    (GoComparable.hashable k = false ∧ HasKey k m = Outcome.panic) ∨
    (GoComparable.hashable k = true ∧
      (∀ e, e ∈ m.entries → GoComparable.eq e.1 k ≠ some true) ∧
      HasKey k m = Outcome.ok false) ∨
    (GoComparable.hashable k = true ∧
      (∃ e, e ∈ m.entries ∧ GoComparable.eq e.1 k = some true) ∧
      HasKey k m = Outcome.ok true) := by
  rcases index_cases m k with ⟨hh, hi⟩ | ⟨hh, habs, hi⟩ | ⟨hh, j, w, hmem, hj, hi⟩
  · exact Or.inl ⟨hh, by simp [HasKey, hi, Outcome.map, Outcome.bind]⟩
  · exact Or.inr (Or.inl ⟨hh, habs, by simp [HasKey, hi, Outcome.map, Outcome.bind]⟩)
  · exact Or.inr (Or.inr ⟨hh, ⟨(j, w), hmem, hj⟩,
      by simp [HasKey, hi, Outcome.map, Outcome.bind]⟩)

theorem mem_keys_iff {K V : Type} [GoComparable K] (m : GoMap K V) (j : K) :
    j ∈ m.keys ↔ ∃ w, (j, w) ∈ m.entries := by
  unfold GoMap.keys
  constructor
  · intro h
    obtain ⟨e, he, hj⟩ := List.mem_map.mp h
    obtain ⟨j1, w⟩ := e
    simp only at hj
    subst hj
    exact ⟨w, he⟩
  · rintro ⟨w, hw⟩
    exact List.mem_map.mpr ⟨(j, w), hw, rfl⟩

/-- C12, as stated, fails: in `map[any]int{NaN: 1}` the key NaN is present and
`HasKey(NaN)(m)` is false; in `map[any]int{1: 1}` the key `[]int{1}` is absent and
`HasKey([]int{1})(m)` gives no answer: hashing the key panics. -/
theorem HasKey_not_decided_by_presence :
    (GoAny.nan ∈ nanKeyMap.keys ∧ HasKey GoAny.nan nanKeyMap = Outcome.ok false) ∧
    (GoAny.ints [1] ∉ anyKeyMap.keys ∧
      HasKey (GoAny.ints [1]) anyKeyMap = Outcome.panic) := by
  decide

/-- C12, amended: for an unhashable key `HasKey(k)(m)` panics.  It returns true
exactly when `k` is hashable and some key of `m` equals `k` under `==`, whatever value
that key is mapped to, the zero value included; it returns false exactly when `k` is
hashable and no key of `m` equals it.  Two maps with the same key set, of any value
types, give the same result, a panic included. -/
theorem HasKey_spec {K V W : Type} [GoComparable K] [Inhabited V] [Inhabited W]
    (k : K) (m : GoMap K V) (n : GoMap K W) :
    (GoComparable.hashable k = false → HasKey k m = Outcome.panic) ∧
    (HasKey k m = Outcome.ok true ↔
      GoComparable.hashable k = true ∧
      ∃ e, e ∈ m.entries ∧ GoComparable.eq e.1 k = some true) ∧
    (HasKey k m = Outcome.ok false ↔
      GoComparable.hashable k = true ∧
      ∀ e, e ∈ m.entries → GoComparable.eq e.1 k ≠ some true) ∧
    (∀ j, GoComparable.hashable k = true → (j, (default : V)) ∈ m.entries →
      GoComparable.eq j k = some true → HasKey k m = Outcome.ok true) ∧
    ((∀ j, j ∈ m.keys ↔ j ∈ n.keys) → HasKey k m = HasKey k n) := by
  refine ⟨?_, ?_, ?_, ?_, ?_⟩
  · intro hh
    rcases HasKey_cases k m with ⟨_, hr⟩ | ⟨h1, _, _⟩ | ⟨h1, _, _⟩
    · exact hr
    · rw [hh] at h1; cases h1
    · rw [hh] at h1; cases h1
  · constructor
    · intro ht
      rcases HasKey_cases k m with ⟨_, hr⟩ | ⟨_, _, hr⟩ | ⟨h1, hex, _⟩
      · rw [hr] at ht; cases ht
      · rw [hr] at ht; cases ht
      · exact ⟨h1, hex⟩
    · rintro ⟨hh, e, he, hek⟩
      rcases HasKey_cases k m with ⟨h1, _⟩ | ⟨_, habs, _⟩ | ⟨_, _, hr⟩
      · rw [hh] at h1; cases h1
      · exact absurd hek (habs e he)
      · exact hr
  · constructor
    · intro hf
      rcases HasKey_cases k m with ⟨_, hr⟩ | ⟨h1, habs, _⟩ | ⟨_, _, hr⟩
      · rw [hr] at hf; cases hf
      · exact ⟨h1, habs⟩
      · rw [hr] at hf; cases hf
    · rintro ⟨hh, habs⟩
      rcases HasKey_cases k m with ⟨h1, _⟩ | ⟨_, _, hr⟩ | ⟨_, ⟨e, he, hek⟩, _⟩
      · rw [hh] at h1; cases h1
      · exact hr
      · exact absurd hek (habs e he)
  · intro j hh hmem hj
    rcases HasKey_cases k m with ⟨h1, _⟩ | ⟨_, habs, _⟩ | ⟨_, _, hr⟩
    · rw [hh] at h1; cases h1
    · exact absurd hj (habs (j, default) hmem)
    · exact hr
  · intro hkeys
    rcases HasKey_cases k m with ⟨h1, r1⟩ | ⟨h1, a1, r1⟩ | ⟨h1, ⟨e1, m1, k1⟩, r1⟩ <;>
      rcases HasKey_cases k n with ⟨h2, r2⟩ | ⟨h2, a2, r2⟩ | ⟨h2, ⟨e2, m2, k2⟩, r2⟩
    · rw [r1, r2]
    · rw [h1] at h2; cases h2
    · rw [h1] at h2; cases h2
    · rw [h1] at h2; cases h2
    · rw [r1, r2]
    · exfalso
      obtain ⟨w, hw⟩ := (mem_keys_iff m e2.1).mp
        ((hkeys e2.1).mpr ((mem_keys_iff n e2.1).mpr ⟨e2.2, m2⟩))
      exact a1 (e2.1, w) hw k2
    · rw [h1] at h2; cases h2
    · exfalso
      obtain ⟨w, hw⟩ := (mem_keys_iff n e1.1).mp
        ((hkeys e1.1).mp ((mem_keys_iff m e1.1).mpr ⟨e1.2, m1⟩))
      exact a2 (e1.1, w) hw k1
    · rw [r1, r2]

/-- Witness for the amended C12: in `{1: 7, 2: 0}` key 2 is mapped to the zero value
and is found; `{1: 0, 2: 5}` has the same keys and gives the same answers. -/
theorem HasKey_spec_witness :
    ((GoComparable.hashable (2 : Int) = true ∧
      ((2 : Int), (default : Int)) ∈ sampleMap.entries ∧
      GoComparable.eq (2 : Int) 2 = some true) ∧ HasKey 2 sampleMap = Outcome.ok true) ∧
    ((∀ j, j ∈ sampleMap.keys ↔ j ∈ sampleMapOther.keys) ∧
      HasKey 3 sampleMap = HasKey 3 sampleMapOther) :=
  ⟨⟨⟨rfl, by decide, by decide⟩,
    (HasKey_spec 2 sampleMap sampleMapOther).2.2.2.1 2 rfl (by decide) (by decide)⟩,
   ⟨fun _ => Iff.rfl, (HasKey_spec 3 sampleMap sampleMapOther).2.2.2.2 (fun _ => Iff.rfl)⟩⟩

/-! ## Claims about the comparisons -/

/-- C13: for all integers `n` and `x`, `GreaterThan(n)(x)`, `GreaterOrEqual(n)(x)`,
`LessThan(n)(x)` and `LessOrEqual(n)(x)` are the truth values of `x > n`, `x >= n`,
`x < n` and `x <= n`. -/
theorem comparisons_spec (n x : Int) :
    (GreaterThan n x = true ↔ x > n) ∧ (GreaterOrEqual n x = true ↔ x ≥ n) ∧
    (LessThan n x = true ↔ x < n) ∧ (LessOrEqual n x = true ↔ x ≤ n) := by
  simp [GreaterThan, GreaterOrEqual, LessThan, LessOrEqual]

/-! ## Claims about `MatchRegex` and `IsZero` -/

theorem MatchRegex_of_error {R E : Type} (compile : GoString → Option R × Option E)
    (matchString : R → GoString → Bool) (pattern : GoString) (err : E)
    (h : (compile pattern).2 = some err) :
    MatchRegex compile matchString pattern = (none, some err) := by
  unfold MatchRegex
  rcases hc : compile pattern with ⟨re, e⟩
  rw [hc] at h
  simp only at h
  subst h
  rfl

theorem MatchRegex_of_success {R E : Type} (compile : GoString → Option R × Option E)
    (matchString : R → GoString → Bool) (pattern : GoString)
    (h : (compile pattern).2 = none) :
    (MatchRegex compile matchString pattern).2 = none ∧
    (MatchRegex compile matchString pattern).1.isSome = true := by
  unfold MatchRegex
  rcases hc : compile pattern with ⟨re, e⟩
  rw [hc] at h
  simp only at h
  subst h
  exact ⟨rfl, rfl⟩

/-- C14: `MatchRegex(pattern)` returns a non-nil error exactly when `regexp.Compile`
reports one, and then the predicate result is nil; when `regexp.Compile` reports no
error, the error result is nil and the predicate is not nil; an error and a predicate
are never returned together. -/
theorem MatchRegex_error_iff {R E : Type} (compile : GoString → Option R × Option E)
    (matchString : R → GoString → Bool) (pattern : GoString) :
    ((MatchRegex compile matchString pattern).2.isSome = true ↔
      (compile pattern).2.isSome = true) ∧
    ((compile pattern).2.isSome = true →
      (MatchRegex compile matchString pattern).1.isSome = false) ∧
    ((compile pattern).2 = none →
      (MatchRegex compile matchString pattern).2 = none ∧
      (MatchRegex compile matchString pattern).1.isSome = true) ∧
    ¬ ((MatchRegex compile matchString pattern).2.isSome = true ∧
       (MatchRegex compile matchString pattern).1.isSome = true) := by
  cases hc : (compile pattern).2 with
  | none =>
    obtain ⟨h2, h1⟩ := MatchRegex_of_success compile matchString pattern hc
    rw [h2]
    simp [h1]
  | some err =>
    rw [MatchRegex_of_error compile matchString pattern err hc]
    simp

/-- Witness for C14: the rejected pattern `[` and the accepted pattern `a`. -/
theorem MatchRegex_error_iff_witness :
    ((sampleCompile [91]).2.isSome = true ∧
      (MatchRegex sampleCompile sampleMatch [91]).1.isSome = false) ∧
    ((sampleCompile [97]).2 = none ∧
      (MatchRegex sampleCompile sampleMatch [97]).2 = none ∧
      (MatchRegex sampleCompile sampleMatch [97]).1.isSome = true) :=
  ⟨⟨by decide, (MatchRegex_error_iff sampleCompile sampleMatch [91]).2.1 (by decide)⟩,
   ⟨by decide, (MatchRegex_error_iff sampleCompile sampleMatch [97]).2.2.1 (by decide)⟩⟩

theorem unclosedClass_append (pre rest : GoString) (h : (91 : Byte) ∉ pre) :
    unclosedClass (pre ++ 91 :: rest) = some (91 :: rest) := by
  induction pre with
  | nil => simp [unclosedClass]
  | cons c pre ih =>
    have hc : c ≠ 91 := fun e => h (by rw [e]; exact List.mem_cons_self _ _)
    have hpre : (91 : Byte) ∉ pre := fun e => h (List.mem_cons_of_mem _ e)
    simp only [List.cons_append, unclosedClass, if_neg hc]
    exact ih hpre

theorem sampleCompile_unclosed (pre rest : GoString) (h : (91 : Byte) ∉ pre) :
    (MatchRegex sampleCompile sampleMatch (pre ++ 91 :: rest)).2
      = some ⟨ErrorCode.missingBracket, 91 :: rest⟩ := by
  have hc : (sampleCompile (pre ++ 91 :: rest)).2
      = some ⟨ErrorCode.missingBracket, 91 :: rest⟩ := by
    simp [sampleCompile, unclosedClass_append pre rest h]
  rw [MatchRegex_of_error sampleCompile sampleMatch _ _ hc]

/-- C15, as stated, fails: for the invalid pattern `ab[` the error returned by
`MatchRegex` is the `*syntax.Error` of the compile step, with the complaint
`missing closing ]` and the piece `[`; it does not hold the original pattern `ab[`,
and the different pattern `b[` gives the very same error. -/
theorem MatchRegex_error_drops_pattern :
    inFragment [97, 98, 91] = true ∧ inFragment [98, 91] = true ∧
    (∃ e, (MatchRegex sampleCompile sampleMatch [97, 98, 91]).2 = some e ∧
      e.Code = ErrorCode.missingBracket ∧ e.Expr = [91] ∧ e.Expr ≠ [97, 98, 91]) ∧
    (MatchRegex sampleCompile sampleMatch [97, 98, 91]).2
      = (MatchRegex sampleCompile sampleMatch [98, 91]).2 ∧
    ([97, 98, 91] : GoString) ≠ [98, 91] := by
  refine ⟨by decide, by decide, ⟨⟨ErrorCode.missingBracket, [91]⟩, ?_, rfl, rfl, ?_⟩, ?_, ?_⟩
  · decide
  · decide
  · decide
  · decide

/-- C15, amended: when `regexp.Compile` rejects the pattern with the error `err`,
`MatchRegex` returns no predicate and that same error value, unchanged; no error kind
of its own is made.  For a pattern of letters and `[`, the error holds the complaint
`missing closing ]` and the text from the first `[` to the end of the pattern, which
is the whole original pattern only when the pattern starts with that `[`. -/
theorem MatchRegex_error_is_compile_error {R E : Type}
    (compile : GoString → Option R × Option E) (matchString : R → GoString → Bool)
    (pattern : GoString) (err : E) (pre rest : GoString) :
    ((compile pattern).2 = some err →
      MatchRegex compile matchString pattern = (none, some err)) ∧
    (inFragment (pre ++ 91 :: rest) = true → (91 : Byte) ∉ pre →
      (MatchRegex sampleCompile sampleMatch (pre ++ 91 :: rest)).2
        = some ⟨ErrorCode.missingBracket, 91 :: rest⟩ ∧
      ((MatchRegex sampleCompile sampleMatch (pre ++ 91 :: rest)).2
        = some ⟨ErrorCode.missingBracket, pre ++ 91 :: rest⟩ ↔ pre = [])) := by
  refine ⟨MatchRegex_of_error compile matchString pattern err, ?_⟩
  intro _ hpre
  have hs := sampleCompile_unclosed pre rest hpre
  refine ⟨hs, ?_⟩
  rw [hs]
  constructor
  · intro h
    injection h with h
    injection h with _ h
    have hlen := congrArg List.length h
    simp only [List.length_cons, List.length_append] at hlen
    exact List.length_eq_zero.mp (by omega)
  · intro h
    subst h
    rfl

/-- Witness for the amended C15 at the rejected pattern `ab[`. -/
theorem MatchRegex_error_is_compile_error_witness :
    ((sampleCompile [97, 98, 91]).2 = some ⟨ErrorCode.missingBracket, [91]⟩ ∧
      MatchRegex sampleCompile sampleMatch [97, 98, 91]
        = (none, some ⟨ErrorCode.missingBracket, [91]⟩)) ∧
    ((inFragment ([97, 98] ++ 91 :: []) = true ∧ (91 : Byte) ∉ ([97, 98] : GoString)) ∧
      (MatchRegex sampleCompile sampleMatch ([97, 98] ++ 91 :: [])).2
        = some ⟨ErrorCode.missingBracket, 91 :: []⟩) :=
  ⟨⟨by decide,
    (MatchRegex_error_is_compile_error sampleCompile sampleMatch [97, 98, 91]
      ⟨ErrorCode.missingBracket, [91]⟩ [] []).1 (by decide)⟩,
   ⟨⟨by decide, by decide⟩,
    ((MatchRegex_error_is_compile_error sampleCompile sampleMatch []
      ⟨ErrorCode.missingBracket, []⟩ [97, 98] []).2 (by decide) (by decide)).1⟩⟩

/-- C16: for a type with decidable equality, `IsZero[T]()(x)` is true exactly when `x`
is the zero value of `T`; for `int` that is `x = 0`, for `string` the empty string. -/
theorem IsZero_spec {T : Type} [DecidableEq T] [Inhabited T] (x : T) (n : Int)
    (s : GoString) :
    (IsZero x = true ↔ x = default) ∧
    (IsZero n = true ↔ n = 0) ∧
    (IsZero s = true ↔ s = []) ∧
    IsZero (0 : Int) = true ∧ IsZero (5 : Int) = false ∧ IsZero ([] : GoString) = true := by
  refine ⟨by simp [IsZero], ?_, ?_, by decide, by decide, by decide⟩
  · have h0 : (default : Int) = 0 := rfl
    simp [IsZero, h0]
  · have h0 : (default : GoString) = [] := rfl
    simp [IsZero, h0]

/-! ## Totality, the nil predicate, and relations between the string predicates -/

theorem slice_in_bounds (s : GoString) (lo hi : Int) (h1 : 0 ≤ lo) (h2 : lo ≤ hi)
    (h3 : hi ≤ len s) : ∃ t, slice s lo hi = Outcome.ok t := by
  unfold slice
  rw [if_pos ⟨h1, h2, h3⟩]
  exact ⟨_, rfl⟩

theorem Contains_true_of_split (p s : GoString) (hp : p ≠ [])
    (h : ∃ pre post, s = pre ++ p ++ post) : Contains p s = Outcome.ok true := by
  obtain ⟨b, hb, hiff⟩ := Contains_spec p s
  rw [occursAt_iff_split] at hiff
  rw [hb, hiff.mpr ⟨hp, h⟩]

/-- C17: for every pair of strings, `StartsWith`, `EndsWith`, `Contains` and
`stringContains` return a boolean and never fail; each slice expression they evaluate,
`s[:len(p)]`, `s[len(s)-len(p):]` and `s[i:i+len(p)]`, is evaluated under a guard that
keeps its bounds within `0 .. len(s)`. -/
theorem string_predicates_total (p s : GoString) :
    (∃ b, StartsWith p s = Outcome.ok b) ∧
    (∃ b, EndsWith p s = Outcome.ok b) ∧
    (∃ b, Contains p s = Outcome.ok b) ∧
    (∃ b, stringContains s p = Outcome.ok b) ∧
    (len s ≥ len p → ∃ t, slice s 0 (len p) = Outcome.ok t) ∧
    (len s ≥ len p → ∃ t, slice s (len s - len p) (len s) = Outcome.ok t) ∧
    (∀ i : Int, 0 ≤ i → i ≤ len s - len p → ∃ t, slice s i (i + len p) = Outcome.ok t) := by
  have hp := len_nonneg p
  have hs := len_nonneg s
  refine ⟨⟨_, StartsWith_spec p s⟩, ⟨_, EndsWith_spec p s⟩, ?_, ?_, ?_, ?_, ?_⟩
  · obtain ⟨b, hb, _⟩ := Contains_spec p s
    exact ⟨b, hb⟩
  · obtain ⟨b, hb, _⟩ := stringContains_spec s p
    exact ⟨b, hb⟩
  · intro h
    exact slice_in_bounds s 0 (len p) (le_refl _) hp h
  · intro h
    exact slice_in_bounds s (len s - len p) (len s) (by omega) (by omega) (le_refl _)
  · intro i h0 hi
    exact slice_in_bounds s i (i + len p) h0 (by omega) (by omega)

/-- Witness for C17: the slices taken for `p = [2, 3]` in `s = [1, 2, 3]`. -/
theorem string_predicates_total_witness :
    (len [1, 2, 3] ≥ len [2, 3] ∧ ∃ t, slice [1, 2, 3] 0 (len [2, 3]) = Outcome.ok t) ∧
    (len [1, 2, 3] ≥ len [2, 3] ∧
      ∃ t, slice [1, 2, 3] (len [1, 2, 3] - len [2, 3]) (len [1, 2, 3]) = Outcome.ok t) ∧
    (((0 : Int) ≤ 1 ∧ (1 : Int) ≤ len [1, 2, 3] - len [2, 3]) ∧
      ∃ t, slice [1, 2, 3] 1 (1 + len [2, 3]) = Outcome.ok t) :=
  ⟨⟨by decide, (string_predicates_total [2, 3] [1, 2, 3]).2.2.2.2.1 (by decide)⟩,
   ⟨by decide, (string_predicates_total [2, 3] [1, 2, 3]).2.2.2.2.2.1 (by decide)⟩,
   ⟨⟨by decide, by decide⟩,
    (string_predicates_total [2, 3] [1, 2, 3]).2.2.2.2.2.2 1 (by decide) (by decide)⟩⟩

/-- C18, as stated, fails: `Not(nil)` is built without any failure, and invoking the
predicate it returns fails. -/
theorem Not_nil_invocation_fails :
    Not (none : Func Int) 0 = Outcome.panic ∧
    ¬ ∃ b, Not (none : Func Int) 0 = Outcome.ok b := by
  refine ⟨by decide, ?_⟩
  rintro ⟨b, hb⟩
  have h : Not (none : Func Int) 0 = Outcome.panic := by decide
  rw [h] at hb
  cases hb

/-- C18, amended: `Not` has no guard.  The predicate returned by `Not(p)` returns a
boolean on `x` exactly when the call `p(x)` does; for a nil `p` every invocation fails,
and for a non-nil `p` whose call returns `b` the invocation returns `!b`. -/
theorem Not_returns_iff_call_returns {T : Type} (p : Func T) (f : T → Outcome Bool)
    (x : T) (b : Bool) :
    ((∃ c, Not p x = Outcome.ok c) ↔ ∃ c, Func.call p x = Outcome.ok c) ∧
    Not (none : Func T) x = Outcome.panic ∧
    (f x = Outcome.ok b → Not (some f) x = Outcome.ok (!b)) := by
  refine ⟨?_, rfl, ?_⟩
  · unfold Not Outcome.map Outcome.bind
    cases Func.call p x <;> simp
  · intro h
    simp [Not, Func.call, h, Outcome.map, Outcome.bind]

/-- Witness for the amended C18: negating the predicate built by `Contains`. -/
theorem Not_returns_iff_call_returns_witness :
    Contains [1] [0, 1] = Outcome.ok true ∧
    Not (some (Contains [1])) [0, 1] = Outcome.ok (!true) :=
  ⟨by decide,
   (Not_returns_iff_call_returns (some (Contains [1])) (Contains [1]) [0, 1] true).2.2
     (by decide)⟩

theorem stringContains_false_of_short (s sub : GoString) (h : s.length < sub.length) :
    stringContains s sub = Outcome.ok false := by
  obtain ⟨b, hb, hiff⟩ := stringContains_spec s sub
  cases b with
  | false => exact hb
  | true =>
    obtain ⟨j, hj, _⟩ := hiff.mp rfl
    omega

theorem stringContains_empty (s : GoString) : stringContains s [] = Outcome.ok true := by
  obtain ⟨b, hb, hiff⟩ := stringContains_spec s []
  have hocc : ∃ j, OccursAt [] s j := ⟨0, by simp [OccursAt]⟩
  rw [hb, hiff.mpr hocc]

theorem Contains_eq_stringContains (substr s : GoString) (h : substr ≠ []) :
    Contains substr s = stringContains s substr := by
  have hpos : 0 < substr.length := List.length_pos.mpr h
  unfold Contains Outcome.andThen len
  have h1 : ((substr.length : Int) > 0) := by omega
  by_cases h3 : ((substr.length : Int) ≤ (s.length : Int))
  · have h2 : ((s.length : Int) > 0) := by omega
    simp [h1, h2, h3]
  · have hshort : s.length < substr.length := by omega
    rw [stringContains_false_of_short s substr hshort]
    by_cases h2 : ((s.length : Int) > 0) <;> simp [h1, h2, h3]

/-- C19: `Contains(substr)(s)` equals `len(substr) > 0 && stringContains(s, substr)`,
so the two length guards on `s` are redundant; `Contains` and `stringContains` differ
exactly for the empty `substr`, where `stringContains(s, "")` is true for every `s`
(the empty one included) and `Contains("")(s)` is false. -/
theorem Contains_eq_unguarded (substr s : GoString) :
    Contains substr s = ContainsUnguarded substr s ∧
    (Contains substr s ≠ stringContains s substr ↔ substr = []) ∧
    stringContains s [] = Outcome.ok true ∧
    stringContains [] [] = Outcome.ok true ∧
    Contains [] s = Outcome.ok false := by
  have hempty : Contains [] s = Outcome.ok false := by
    simp [Contains, Outcome.andThen, len]
  refine ⟨?_, ?_, stringContains_empty s, stringContains_empty [], hempty⟩
  · by_cases h : substr = []
    · subst h
      rw [hempty]
      simp [ContainsUnguarded, Outcome.andThen, len]
    · rw [Contains_eq_stringContains substr s h]
      have hpos : 0 < substr.length := List.length_pos.mpr h
      have h1 : ((substr.length : Int) > 0) := by omega
      simp [ContainsUnguarded, Outcome.andThen, len, h1]
  · constructor
    · intro hne
      by_contra h
      exact hne (Contains_eq_stringContains substr s h)
    · intro h
      subst h
      rw [hempty, stringContains_empty s]
      intro hc
      cases hc

/-- C20: for a non-empty `p`, if `StartsWith(p)(s)` is true or `EndsWith(p)(s)` is true
then `Contains(p)(s)` is true. -/
theorem Contains_of_StartsWith_or_EndsWith (p s : GoString) (hp : p ≠ [])
    (h : StartsWith p s = Outcome.ok true ∨ EndsWith p s = Outcome.ok true) :
    Contains p s = Outcome.ok true := by
  apply Contains_true_of_split p s hp
  rcases h with h | h
  · rw [StartsWith_spec] at h
    injection h with h
    obtain ⟨rest, hrest⟩ := (take_eq_iff_append p s).mp (of_decide_eq_true h)
    exact ⟨[], rest, by simpa using hrest⟩
  · rw [EndsWith_spec] at h
    injection h with h
    obtain ⟨rest, hrest⟩ := (drop_eq_iff_append p s).mp (of_decide_eq_true h)
    exact ⟨rest, [], by simpa using hrest⟩

/-- Witness for C20: `[3, 4]` ends `[1, 2, 3, 4]` without starting it. -/
theorem Contains_of_StartsWith_or_EndsWith_witness :
    (([3, 4] : GoString) ≠ [] ∧
      (StartsWith [3, 4] [1, 2, 3, 4] = Outcome.ok true ∨
        EndsWith [3, 4] [1, 2, 3, 4] = Outcome.ok true)) ∧
    Contains [3, 4] [1, 2, 3, 4] = Outcome.ok true :=
  ⟨⟨by decide, by decide⟩,
   Contains_of_StartsWith_or_EndsWith [3, 4] [1, 2, 3, 4] (by decide) (by decide)⟩

end Gftools
